import Mathlib

/-!
Verification of the mesh hierarchy and block orchestration subsystem of an
Athena-derived astrophysical MHD code (src/mesh.cpp) against its
natural-language specification.  The machine reals (`Real` in the source,
a typedef for `double`) are embedded as exact rationals `ℚ`; machine
integers (`int`, `long int`) as `Int` or `Nat` where the source guarantees
nonnegativity.  Fallible construction paths are embedded as explicit
result values.  External collaborators that the source merely calls
(`IOWrapper::Read`, `MeshBlockTree::FindNeighbor`, `std::sort`,
`FindBufferID`) enter the embedding as parameters or oracles, so every
branch of the embedded control flow is the source's own.
-/

/-! ### Mesh::NewTimeStep (mesh.cpp lines 1081-1098)

The source walks the local block list taking the minimum of
`new_block_dt`, multiplies by `cfl_number`, clamps at `2.0*dt` (the stored
dt at entry), and finally clamps at `tlim - time` when the step would
overshoot the time limit. -/

/-- Embedding of `Mesh::NewTimeStep`.  `d0` is `pblock->new_block_dt`
(the list is nonempty in the source: `pblock` is dereferenced), `ds` the
remaining blocks' `new_block_dt`, and the result is the stored `dt` at
exit. -/
def newTimeStep (d0 : ℚ) (ds : List ℚ) (cflNumber dtPrev time tlim : ℚ) : ℚ :=
  let minDt := ds.foldl min d0
  let dt1 := min (minDt * cflNumber) (2 * dtPrev)
  if time < tlim ∧ tlim - time < dt1 then tlim - time else dt1

/-! ### CFL validation in the Mesh constructor (mesh.cpp lines 129-139)

Construction throws when `cfl_number > 1.0 && nx2 == 1` or when
`cfl_number > 0.5 && nx2 > 1`. -/

/-- Embedding of the CFL validation in `Mesh::Mesh`: `true` means the
constructor throws the fatal error. -/
def cflCheckFatal (cflNumber : ℚ) (nx2 : Int) : Bool :=
  (decide (cflNumber > 1) && decide (nx2 = 1)) ||
  (decide (cflNumber > 1/2) && decide (nx2 > 1))

/-! ### Mesh::FindMeshBlock (mesh.cpp lines 1251-1261)

A linear walk over the doubly-linked local block list starting at
`pblock`, stopping at the first block whose `gid` matches, returning
`NULL` when the walk falls off the end. -/

/-- The per-block data `FindMeshBlock` inspects: the global id plus the
local id standing in for the rest of the block's state (so two blocks
with the same gid are still distinguishable). -/
structure MeshBlockE where
  gid : Int
  lid : Int
  deriving DecidableEq, Repr

/-- Embedding of `Mesh::FindMeshBlock`: walk the local list, return the
first block whose `gid` equals `tgid`, `none` for the `NULL` fall-off. -/
def findMeshBlock (tgid : Int) : List MeshBlockE → Option MeshBlockE
  | [] => none
  | b :: bs => if b.gid = tgid then some b else findMeshBlock tgid bs

lemma findMeshBlock_eq_some {tgid : Int} {l : List MeshBlockE} {b : MeshBlockE}
    (h : findMeshBlock tgid l = some b) :
    b.gid = tgid ∧ ∃ i : Nat, l.get? i = some b ∧
      ∀ j < i, ∀ b', l.get? j = some b' → b'.gid ≠ tgid := by
  induction l with
  | nil => simp [findMeshBlock] at h
  | cons x xs ih =>
    by_cases hx : x.gid = tgid
    · simp only [findMeshBlock, if_pos hx] at h
      cases h
      exact ⟨hx, 0, rfl, by omega⟩
    · simp only [findMeshBlock, if_neg hx] at h
      obtain ⟨hb, i, hi, hfirst⟩ := ih h
      refine ⟨hb, i + 1, hi, ?_⟩
      intro j hj b' hb'
      cases j with
      | zero =>
        simp only [List.get?] at hb'
        cases hb'
        exact hx
      | succ j => exact hfirst j (by omega) b' hb'

lemma findMeshBlock_eq_none {tgid : Int} {l : List MeshBlockE} :
    findMeshBlock tgid l = none ↔ ∀ b ∈ l, b.gid ≠ tgid := by
  induction l with
  | nil => simp [findMeshBlock]
  | cons x xs ih =>
    by_cases hx : x.gid = tgid
    · simp [findMeshBlock, hx]
    · simp [findMeshBlock, hx, ih]

/-- C10: for every gid value `tgid`, `Mesh::FindMeshBlock` returns the
first block in the local block list whose gid equals `tgid`, and returns
NULL when no local block has that gid (in particular for every gid owned
by another rank); it consults only the local list (the embedding takes
nothing but the local list as input). -/
theorem findMeshBlock_first_or_null :
    (∀ (l : List MeshBlockE) (tgid : Int) (b : MeshBlockE),
      findMeshBlock tgid l = some b →
        b.gid = tgid ∧ ∃ i : Nat, l.get? i = some b ∧
          ∀ j < i, ∀ b', l.get? j = some b' → b'.gid ≠ tgid)
    ∧ (∀ (l : List MeshBlockE) (tgid : Int),
        findMeshBlock tgid l = none ↔ ∀ b ∈ l, b.gid ≠ tgid) :=
  ⟨fun _ _ _ h => findMeshBlock_eq_some h, fun _ _ => findMeshBlock_eq_none⟩

/-- Witness for C10 at a concrete list: gid 7 is found at the first of its
two occurrences, and gid 9 (owned by no local block) yields `none`. -/
theorem findMeshBlock_first_or_null_witness :
    (⟨7, 1⟩ : MeshBlockE).gid = 7 ∧
      (∃ i : Nat, ([⟨3, 0⟩, ⟨7, 1⟩, ⟨7, 2⟩] : List MeshBlockE).get? i = some ⟨7, 1⟩ ∧
        ∀ j < i, ∀ b', ([⟨3, 0⟩, ⟨7, 1⟩, ⟨7, 2⟩] : List MeshBlockE).get? j = some b' →
          b'.gid ≠ 7) := by
  have h := findMeshBlock_first_or_null.1 [⟨3, 0⟩, ⟨7, 1⟩, ⟨7, 2⟩] 7 ⟨7, 1⟩ (by decide)
  exact h

/-- C6: for every call to `Mesh::NewTimeStep`, the stored `dt` at exit
never exceeds `2 * dt_prev`, and whenever `time < tlim` at entry the step
never overshoots: `time + dt ≤ tlim` at exit. -/
theorem newTimeStep_clamp (d0 : ℚ) (ds : List ℚ) (cflNumber dtPrev time tlim : ℚ) :
    newTimeStep d0 ds cflNumber dtPrev time tlim ≤ 2 * dtPrev ∧
    (time < tlim → time + newTimeStep d0 ds cflNumber dtPrev time tlim ≤ tlim) := by
  unfold newTimeStep
  set dt1 := min ((ds.foldl min d0) * cflNumber) (2 * dtPrev) with hdt1
  have h1 : dt1 ≤ 2 * dtPrev := min_le_right _ _
  by_cases hc : time < tlim ∧ tlim - time < dt1
  · rw [if_pos hc]
    constructor
    · linarith [hc.2]
    · intro _
      linarith
  · rw [if_neg hc]
    refine ⟨h1, fun ht => ?_⟩
    have : ¬ tlim - time < dt1 := fun hlt => hc ⟨ht, hlt⟩
    linarith [not_lt.mp this]

/-- Witness for C6 at concrete inputs: one block proposing dt 3, cfl 1/2,
previous dt 1, time 0, tlim 10. -/
theorem newTimeStep_clamp_witness :
    newTimeStep 3 [] (1/2) 1 0 10 ≤ 2 * 1 ∧ (0 : ℚ) < 10 ∧
      (0 : ℚ) + newTimeStep 3 [] (1/2) 1 0 10 ≤ 10 := by
  have h := newTimeStep_clamp 3 [] (1/2) 1 0 10
  exact ⟨h.1, by norm_num, h.2 (by norm_num)⟩

/-- C7: the Mesh constructor's CFL validation is fatal exactly when
`nx2 = 1` (1D) with `cfl_number > 1.0` or `nx2 > 1` (2D/3D) with
`cfl_number > 0.5`; in particular a 1D build with CFL 0.8 passes the check
and one with CFL 1.1 fails. -/
theorem cflCheckFatal_spec :
    (∀ (cflNumber : ℚ) (nx2 : Int),
      cflCheckFatal cflNumber nx2 = true ↔
        (nx2 = 1 ∧ cflNumber > 1) ∨ (nx2 > 1 ∧ cflNumber > 1/2))
    ∧ cflCheckFatal (8/10) 1 = false ∧ cflCheckFatal (11/10) 1 = true := by
  refine ⟨fun cflNumber nx2 => ?_, by norm_num [cflCheckFatal], by norm_num [cflCheckFatal]⟩
  simp only [cflCheckFatal, Bool.or_eq_true, Bool.and_eq_true, decide_eq_true_eq]
  tauto

/-! ### Mesh::LoadBalancing (mesh.cpp lines 1603-1645)

The source computes the total cost, sets `targetcost = totalcost/nranks`,
then sweeps the blocks from the highest global index down, accumulating
`mycost` and assigning the current rank `j` (starting at `nranks-1`);
when `mycost >= targetcost && j > 0` it decrements `j`, subtracts the
consumed cost from `totalcost` and recomputes
`targetcost = totalcost/(j+1)`. -/

/-- The downward sweep of `Mesh::LoadBalancing` over the cost list taken
in reverse global order (the source iterates `i = nbtotal-1 .. 0`): each
entry receives the current rank `j`; on `mycost >= targetcost && j > 0`
the rank is decremented and the target recomputed from the remaining
total. -/
def lbSweep : List ℚ → Nat → ℚ → ℚ → ℚ → List Nat
  | [], _, _, _, _ => []
  | c :: cs, j, totalcost, targetcost, mycost =>
    let my2 := mycost + c
    if my2 ≥ targetcost ∧ 0 < j then
      j :: lbSweep cs (j - 1) (totalcost - my2) ((totalcost - my2) / (j : ℚ)) 0
    else
      j :: lbSweep cs j totalcost targetcost my2

/-- Embedding of `Mesh::LoadBalancing`: the rank list indexed in global
block order, obtained by sweeping the reversed cost list and reversing
back. -/
def loadBalancingRanks (clist : List ℚ) (nranks : Nat) : List Nat :=
  (lbSweep clist.reverse (nranks - 1) clist.sum (clist.sum / (nranks : ℚ)) 0).reverse

/-- Total cost assigned to rank `k`: the sum of the costs at the positions
whose rank entry equals `k`. -/
def rankCost (k : Nat) : List ℚ → List Nat → ℚ
  | [], _ => 0
  | _ :: _, [] => 0
  | c :: cs, r :: rs => (if r = k then c else 0) + rankCost k cs rs

lemma lbSweep_length (cs : List ℚ) :
    ∀ j totalcost targetcost mycost,
      (lbSweep cs j totalcost targetcost mycost).length = cs.length := by
  induction cs with
  | nil => intro j t tg my; rfl
  | cons c cs ih =>
    intro j t tg my
    unfold lbSweep
    by_cases h : (my + c ≥ tg ∧ 0 < j) <;> simp [h, ih]

lemma lbSweep_rankZero (cs : List ℚ) :
    ∀ totalcost targetcost mycost,
      lbSweep cs 0 totalcost targetcost mycost = List.replicate cs.length 0 := by
  induction cs with
  | nil => intro t tg my; rfl
  | cons c cs ih =>
    intro t tg my
    unfold lbSweep
    simp [ih, List.replicate_succ]

lemma lbSweep_consume (c : ℚ) (hc : 0 < c) (q : Nat) (j : Nat) (hj : 0 < j) :
    ∀ d m, 0 < d → d ≤ q → ∀ T : ℚ,
      lbSweep (List.replicate (d + m) c) j T ((q : ℚ) * c) (((q : ℚ) - (d : ℚ)) * c)
        = List.replicate d j ++
          lbSweep (List.replicate m c) (j - 1) (T - (q : ℚ) * c)
            ((T - (q : ℚ) * c) / (j : ℚ)) 0 := by
  intro d
  induction d with
  | zero => intro m h0 _ T; exact absurd h0 (by omega)
  | succ e ih =>
    intro m _ hdq T
    have harg : ((q : ℚ) - ((e + 1 : Nat) : ℚ)) * c + c = ((q : ℚ) - ((e : Nat) : ℚ)) * c := by
      push_cast; ring
    rcases Nat.eq_zero_or_pos e with he | he
    · subst he
      rw [show (1 + m) = m + 1 by omega, List.replicate_succ]
      simp only [lbSweep]
      have hcond : ((q : ℚ) - ((1 : Nat) : ℚ)) * c + c ≥ (q : ℚ) * c ∧ 0 < j := by
        refine ⟨?_, hj⟩
        push_cast
        nlinarith
      rw [if_pos hcond]
      rw [show ((q : ℚ) - ((1 : Nat) : ℚ)) * c + c = (q : ℚ) * c by push_cast; ring]
      simp
    · -- e ≥ 1, so d = e + 1 ≥ 2: the target is not reached at this block
      rw [show (e + 1 + m) = (e + m) + 1 by omega, List.replicate_succ]
      simp only [lbSweep]
      have hlt : ((q : ℚ) - ((e + 1 : Nat) : ℚ)) * c + c < (q : ℚ) * c := by
        have he1 : (1 : ℚ) ≤ ((e : ℚ)) := by exact_mod_cast he
        push_cast
        nlinarith
      rw [if_neg (fun hco => absurd hco.1 (not_le.mpr hlt))]
      rw [harg, ih m he (by omega) T]
      rw [show e + 1 = 1 + e by omega, List.replicate_add, List.replicate_one]
      simp

lemma lbSweep_uniform (c : ℚ) (hc : 0 < c) (q : Nat) (hq : 0 < q) :
    ∀ j : Nat,
      lbSweep (List.replicate (q * (j + 1)) c) j (((q * (j + 1) : Nat) : ℚ) * c)
          ((q : ℚ) * c) 0
        = ((List.range (j + 1)).reverse.map (fun k => List.replicate q k)).flatten := by
  intro j
  induction j with
  | zero =>
    rw [lbSweep_rankZero]
    rw [show List.range 1 = [0] from rfl]
    simp
  | succ j ih =>
    have hsplit : q * (j + 1 + 1) = q + q * (j + 1) := by ring
    rw [hsplit]
    have hmy : (0 : ℚ) = ((q : ℚ) - (q : ℚ)) * c := by ring
    rw [hmy, lbSweep_consume c hc q (j + 1) (by omega) q (q * (j + 1)) hq (le_refl q)]
    have hT : ((q + q * (j + 1) : Nat) : ℚ) * c - (q : ℚ) * c
        = ((q * (j + 1) : Nat) : ℚ) * c := by push_cast; ring
    have htg : (((q + q * (j + 1) : Nat) : ℚ) * c - (q : ℚ) * c) / ((j + 1 : Nat) : ℚ)
        = (q : ℚ) * c := by
      rw [hT]
      have hj1 : ((j + 1 : Nat) : ℚ) ≠ 0 := by positivity
      field_simp
      ring
    rw [htg]
    have hj1 : j + 1 - 1 = j := by omega
    rw [hj1, hT, ih]
    have hr : (List.range (j + 1 + 1)).reverse = (j + 1) :: (List.range (j + 1)).reverse := by
      rw [List.range_succ]
      simp
    rw [hr]
    simp

lemma count_flatten_rev_replicate (q : Nat) :
    ∀ r k : Nat,
      (((List.range r).reverse.map (fun t => List.replicate q t)).flatten).count k
        = if k < r then q else 0 := by
  intro r
  induction r with
  | zero => intro k; simp
  | succ r ih =>
    intro k
    have hr : (List.range (r + 1)).reverse = r :: (List.range r).reverse := by
      rw [List.range_succ]
      simp
    rw [hr]
    simp only [List.map_cons, List.flatten_cons, List.count_append, ih k,
      List.count_replicate, beq_iff_eq]
    split_ifs <;> omega

lemma rankCost_append (k : Nat) (a : List ℚ) :
    ∀ (x : List Nat) (b : List ℚ) (y : List Nat), a.length = x.length →
      rankCost k (a ++ b) (x ++ y) = rankCost k a x + rankCost k b y := by
  induction a with
  | nil =>
    intro x b y h
    cases x with
    | nil => simp [rankCost]
    | cons r rs => simp at h
  | cons c cs ih =>
    intro x b y h
    cases x with
    | nil => simp at h
    | cons r rs =>
      simp only [List.length_cons, Nat.succ_inj] at h
      simp only [List.cons_append, rankCost]
      rw [show (rs.append y) = rs ++ y from rfl, show (cs.append b) = cs ++ b from rfl,
        ih rs b y h]
      ring

lemma rankCost_reverse (k : Nat) (a : List ℚ) :
    ∀ x : List Nat, a.length = x.length →
      rankCost k a.reverse x.reverse = rankCost k a x := by
  induction a with
  | nil => intro x h; cases x with
    | nil => rfl
    | cons r rs => simp at h
  | cons c cs ih =>
    intro x h
    cases x with
    | nil => simp at h
    | cons r rs =>
      simp only [List.length_cons, Nat.succ_inj] at h
      simp only [List.reverse_cons]
      rw [rankCost_append k cs.reverse rs.reverse [c] [r] (by simp [h]), ih rs h]
      simp only [rankCost]
      ring

lemma lbSweep_rank0_cost (cs : List ℚ) :
    ∀ (j : Nat) (totalcost targetcost mycost : ℚ),
      (∀ x ∈ cs, 0 ≤ x) → totalcost = mycost + cs.sum →
      rankCost 0 cs (lbSweep cs j totalcost targetcost mycost) ≤
        if j = 0 then cs.sum else max 0 ((totalcost - targetcost) / (j : ℚ)) := by
  induction cs with
  | nil =>
    intro j t tg my _ _
    rcases Nat.eq_zero_or_pos j with hj | hj
    · subst hj
      simp [rankCost]
    · rw [if_neg (by omega)]
      simp only [rankCost]
      exact le_max_left 0 _
  | cons c t ih =>
    intro j total target my hnn hinv
    have hc0 : 0 ≤ c := hnn c (List.mem_cons_self c t)
    have hts : 0 ≤ t.sum := List.sum_nonneg (fun x hx => hnn x (List.mem_cons_of_mem c hx))
    have hnn' : ∀ x ∈ t, 0 ≤ x := fun x hx => hnn x (List.mem_cons_of_mem c hx)
    have hsum : (c :: t).sum = c + t.sum := List.sum_cons
    simp only [lbSweep]
    by_cases hcond : (my + c ≥ target ∧ 0 < j)
    · rw [if_pos hcond]
      simp only [rankCost]
      have hj0 : j ≠ 0 := by omega
      rw [if_neg hj0, if_neg hj0]
      have hinv' : total - (my + c) = 0 + t.sum := by
        rw [hsum] at hinv
        linarith
      have hkey := ih (j - 1) (total - (my + c)) ((total - (my + c)) / (j : ℚ)) 0 hnn' hinv'
      have htsum : t.sum = total - (my + c) := by linarith
      have hub : total - (my + c) ≤ total - target := by linarith [hcond.1]
      have hnn2 : (0 : ℚ) ≤ total - (my + c) := by
        rw [hinv']
        linarith
      rcases Nat.eq_zero_or_pos (j - 1) with hj1 | hj1
      · -- j = 1 : the remaining blocks all go to rank 0
        rw [if_pos hj1] at hkey
        have hj' : j = 1 := by omega
        subst hj'
        have hstep : t.sum ≤ max 0 ((total - target) / ((1 : Nat) : ℚ)) := by
          rw [htsum]
          refine le_trans ?_ (le_max_right _ _)
          rw [Nat.cast_one, div_one]
          exact hub
        rw [Nat.cast_one] at hstep ⊢
        linarith [hkey, hstep]
      · -- j ≥ 2 : the tail bound collapses to (remaining)/j
        rw [if_neg (by omega)] at hkey
        have hjq : (2 : ℚ) ≤ (j : ℚ) := by
          have h2 : 2 ≤ j := by omega
          exact_mod_cast h2
        have hjpos : (0 : ℚ) < (j : ℚ) := by linarith
        have hj1q : ((j - 1 : ℕ) : ℚ) = (j : ℚ) - 1 := by
          have h1 : 1 ≤ j := by omega
          push_cast [h1]
          ring
        have hcollapse :
            (total - (my + c) - (total - (my + c)) / (j : ℚ)) / ((j - 1 : ℕ) : ℚ)
              = (total - (my + c)) / (j : ℚ) := by
          rw [hj1q]
          have h1 : (j : ℚ) - 1 ≠ 0 := by
            intro h
            nlinarith
          have h2 : (j : ℚ) ≠ 0 := by positivity
          field_simp
          ring
        rw [hcollapse] at hkey
        have hmono : max 0 ((total - (my + c)) / (j : ℚ))
            ≤ max 0 ((total - target) / (j : ℚ)) := by
          exact max_le_max (le_refl 0) (div_le_div_of_nonneg_right hub (le_of_lt hjpos))
        linarith [hkey, hmono]
    · rw [if_neg hcond]
      simp only [rankCost]
      have hinv' : total = (my + c) + t.sum := by
        rw [hsum] at hinv
        linarith
      have hkey := ih j total target (my + c) hnn' hinv'
      rcases Nat.eq_zero_or_pos j with hj | hj
      · subst hj
        rw [if_pos rfl] at hkey
        rw [if_pos rfl, if_pos rfl, hsum]
        linarith
      · have hj0 : j ≠ 0 := by omega
        rw [if_neg hj0] at hkey
        rw [if_neg hj0, if_neg hj0]
        linarith

/-- C1 counterexample: the claim quantifies over every cost list with
equal costs, but the sweep degenerates when the common cost is zero
(`mycost >= targetcost` fires immediately at 0 >= 0), and the rank-0
bound fails when a cost is negative (possible on restart, where costs are
read from the file): with four equal costs 0 on 2 ranks the counts are
{3,1}, not {2,2}; with costs [1,-2] on 2 ranks every block lands on rank
1, so rank 0 carries cost 0 while the average load is -1/2. -/
theorem loadBalancing_claim_counterexample :
    ((4 : Nat) % 2 = 0 ∧ (loadBalancingRanks [(0 : ℚ), 0, 0, 0] 2).count 0 = 3 ∧
      (3 : Nat) ≠ 4 / 2) ∧
    ¬ (rankCost 0 [(1 : ℚ), -2] (loadBalancingRanks [(1 : ℚ), -2] 2)
        ≤ ([(1 : ℚ), -2]).sum / 2) := by
  have hranks : loadBalancingRanks [(0 : ℚ), 0, 0, 0] 2 = [0, 0, 0, 1] := by
    norm_num [loadBalancingRanks, lbSweep]
  have hranks2 : loadBalancingRanks [(1 : ℚ), -2] 2 = [1, 1] := by
    norm_num [loadBalancingRanks, lbSweep]
  refine ⟨⟨by norm_num, ?_, by norm_num⟩, ?_⟩
  · rw [hranks]
    decide
  · rw [hranks2]
    norm_num [rankCost]

/-- C1 (amended): for every invocation of `Mesh::LoadBalancing`, (a) if
all costs are equal and positive and `nbtotal % nranks == 0`, every rank
receives exactly `nbtotal/nranks` blocks; (b) for every cost list with
nonnegative entries (uniform or not), the total cost assigned to rank 0
is at most the average load `total/nranks`; (c) in particular, 10 blocks
on 4 ranks with uniform cost 1 give the rank list
`[0,0,1,1,2,2,2,3,3,3]`, hence per-rank counts {2,2,3,3} with rank 0
receiving 2. -/
theorem loadBalancing_balanced :
    (∀ (n r : Nat) (c : ℚ), 0 < c → 0 < r → r ∣ n →
      ∀ k, k < r → (loadBalancingRanks (List.replicate n c) r).count k = n / r)
    ∧ (∀ (cs : List ℚ) (r : Nat), 0 < r → (∀ x ∈ cs, 0 ≤ x) →
        rankCost 0 cs (loadBalancingRanks cs r) ≤ cs.sum / (r : ℚ))
    ∧ (loadBalancingRanks (List.replicate 10 (1 : ℚ)) 4 = [0, 0, 1, 1, 2, 2, 2, 3, 3, 3]
        ∧ (loadBalancingRanks (List.replicate 10 (1 : ℚ)) 4).count 0 = 2
        ∧ (loadBalancingRanks (List.replicate 10 (1 : ℚ)) 4).count 1 = 2
        ∧ (loadBalancingRanks (List.replicate 10 (1 : ℚ)) 4).count 2 = 3
        ∧ (loadBalancingRanks (List.replicate 10 (1 : ℚ)) 4).count 3 = 3) := by
  have hconcrete : loadBalancingRanks (List.replicate 10 (1 : ℚ)) 4
      = [0, 0, 1, 1, 2, 2, 2, 3, 3, 3] := by
    rw [show List.replicate 10 (1 : ℚ) = [1, 1, 1, 1, 1, 1, 1, 1, 1, 1] from rfl]
    norm_num [loadBalancingRanks, lbSweep]
  refine ⟨?_, ?_, hconcrete, ?_, ?_, ?_, ?_⟩
  · -- (a) uniform positive costs, nranks divides nbtotal
    intro n r c hc hr hdvd k hk
    obtain ⟨q, rfl⟩ := hdvd
    have hrq : r * q / r = q := Nat.mul_div_cancel_left q hr
    rw [hrq]
    rcases Nat.eq_zero_or_pos q with hq | hq
    · subst hq
      simp [loadBalancingRanks, lbSweep]
    · set j := r - 1 with hjdef
      have hj1 : j + 1 = r := by omega
      unfold loadBalancingRanks
      rw [List.reverse_replicate]
      have hsum : (List.replicate (r * q) c).sum = ((r * q : ℕ) : ℚ) * c := by
        simp [List.sum_replicate, nsmul_eq_mul]
      rw [hsum]
      have hn : r * q = q * (j + 1) := by rw [hj1, Nat.mul_comm]
      rw [hn]
      have hjr : ((j : ℚ) + 1) = (r : ℚ) := by exact_mod_cast hj1
      have hr0 : (r : ℚ) ≠ 0 := Nat.cast_ne_zero.mpr (by omega)
      have htg : ((q * (j + 1) : ℕ) : ℚ) * c / (r : ℚ) = (q : ℚ) * c := by
        push_cast
        rw [hjr]
        field_simp
        ring
      rw [htg, lbSweep_uniform c hc q hq j, List.count_reverse,
        count_flatten_rev_replicate q (j + 1) k, if_pos (by omega)]
  · -- (b) nonnegative costs: rank 0 is below the average load
    intro cs r hr hnn
    unfold loadBalancingRanks
    have htrans : ∀ rs : List Nat, cs.reverse.length = rs.length →
        rankCost 0 cs rs.reverse = rankCost 0 cs.reverse rs := by
      intro rs h
      conv_lhs => rw [← List.reverse_reverse cs]
      exact rankCost_reverse 0 cs.reverse rs h
    rw [htrans (lbSweep cs.reverse (r - 1) cs.sum (cs.sum / (r : ℚ)) 0)
      (lbSweep_length cs.reverse (r - 1) cs.sum (cs.sum / (r : ℚ)) 0).symm]
    have hnn' : ∀ x ∈ cs.reverse, 0 ≤ x := fun x hx => hnn x (List.mem_reverse.mp hx)
    have hinv : cs.sum = 0 + cs.reverse.sum := by rw [List.sum_reverse]; ring
    have hkey := lbSweep_rank0_cost cs.reverse (r - 1) cs.sum (cs.sum / (r : ℚ)) 0 hnn' hinv
    have hS : (0 : ℚ) ≤ cs.sum := List.sum_nonneg hnn
    rcases Nat.lt_or_ge r 2 with hr1 | hr2
    · -- r = 1
      have hr1' : r = 1 := by omega
      subst hr1'
      rw [if_pos rfl] at hkey
      rw [List.sum_reverse] at hkey
      refine le_trans hkey (le_of_eq ?_)
      norm_num
    · -- r ≥ 2
      have hj0 : r - 1 ≠ 0 := by omega
      rw [if_neg hj0] at hkey
      have hjr : ((r - 1 : ℕ) : ℚ) = (r : ℚ) - 1 := by
        have h1 : 1 ≤ r := by omega
        push_cast [h1]
        ring
      have hrq : (2 : ℚ) ≤ (r : ℚ) := by exact_mod_cast hr2
      have hr0 : (r : ℚ) ≠ 0 := by positivity
      have hr10 : (r : ℚ) - 1 ≠ 0 := by intro h; nlinarith
      have hcollapse : (cs.sum - cs.sum / (r : ℚ)) / ((r - 1 : ℕ) : ℚ)
          = cs.sum / (r : ℚ) := by
        rw [hjr]
        field_simp
        ring
      rw [hcollapse] at hkey
      have hmax : max 0 (cs.sum / (r : ℚ)) = cs.sum / (r : ℚ) := by
        apply max_eq_right
        positivity
      rw [hmax] at hkey
      exact hkey
  · rw [hconcrete]; decide
  · rw [hconcrete]; decide
  · rw [hconcrete]; decide
  · rw [hconcrete]; decide

/-- Witness for C1 at concrete inputs: 4 uniform unit costs on 2 ranks
give rank 0 exactly 4/2 blocks, and the nonuniform nonnegative list
[1, 2] on 2 ranks leaves rank 0 at or below the average load. -/
theorem loadBalancing_balanced_witness :
    (loadBalancingRanks (List.replicate 4 (1 : ℚ)) 2).count 0 = 4 / 2 ∧
    rankCost 0 [(1 : ℚ), 2] (loadBalancingRanks [(1 : ℚ), 2] 2) ≤ ([(1 : ℚ), 2]).sum / 2 := by
  refine ⟨loadBalancing_balanced.1 4 2 1 one_pos (by norm_num) ⟨2, rfl⟩ 0 (by norm_num), ?_⟩
  have h := loadBalancing_balanced.2.1 [(1 : ℚ), 2] 2 (by norm_num) ?_
  · exact_mod_cast h
  · intro x hx
    fin_cases hx <;> norm_num

/-! ### Derefinement candidate filter in Mesh::MeshRefinement (mesh.cpp lines 1773-1800)

The gathered derefinement-flagged locations are scanned; at an index `n`
whose location has all-even coordinates, the inner triple loop (k up to
`ke`, j up to `je`, i up to 1) compares `lderef[n]` offset by (i,j,k)
against the consecutive entries `lderef[r]` with `r` starting at `n+1`
and incrementing per comparison; when all `minbl` comparisons match, the
parent (coordinates halved, level decremented) is appended to `clderef`.
The scan has no bounds check: `r` runs up to `n + minbl`, past the end
of the `tnderef`-sized allocation (line 1726) for any candidate within
`minbl` entries of the end of the array - and when `tnderef <= minbl`
the array was never allocated at all (guard at line 1725), so every
`lderef[r]` dereferences an uninitialized pointer.  The embedding
therefore carries an explicit parameter `mem` for the contents of the
memory those unchecked reads return: an in-bounds index reads the
gathered entry, an out-of-bounds index reads `mem r`, whatever happens
to sit there. -/

/-- Logical location of a block: tree coordinates `lx1, lx2, lx3`
(`long int` in the source) and refinement `level` (`int`). -/
structure LogicalLocation where
  lx1 : Int
  lx2 : Int
  lx3 : Int
  level : Int
  deriving DecidableEq, Repr

/-- One comparison of the inner loop: the value the source reads as
`lderef[r]` - the gathered entry when `r` is in bounds, the surrounding
memory `mem r` otherwise - compared against `lderef[n]` shifted by the
offset `(i, j, k)` at the same level. -/
def matchAt (lderef : List LogicalLocation) (mem : Nat → LogicalLocation)
    (base : LogicalLocation) (r : Nat) (off : Int × Int × Int) : Bool :=
  let l := (lderef.get? r).getD (mem r)
  decide (base.lx1 + off.1 = l.lx1) && decide (base.lx2 + off.2.1 = l.lx2)
    && decide (base.lx3 + off.2.2 = l.lx3) && decide (base.level = l.level)

/-- The counter `rr` of the source's inner loop: `r` advances by one per
offset, counting matches. -/
def rrAux (lderef : List LogicalLocation) (mem : Nat → LogicalLocation)
    (base : LogicalLocation) : Nat → List (Int × Int × Int) → Nat
  | _, [] => 0
  | r, off :: t =>
    (if matchAt lderef mem base r off then 1 else 0) + rrAux lderef mem base (r + 1) t

/-- The offsets enumerated by the inner triple loop, in loop order
(`k` outermost, `i` innermost, matching the `r` increments). -/
def sibOffsets (je ke : Nat) : List (Int × Int × Int) :=
  (List.range (ke + 1)).flatMap (fun (k : Nat) =>
    (List.range (je + 1)).flatMap (fun (j : Nat) =>
      (List.range 2).map (fun (i : Nat) => ((i : Int), (j : Int), (k : Int)))))

/-- The sibling-group size `minbl` of the source (2 in 1D, 4 in 2D, 8 in
3D), expressed through the loop bounds `je = nx2>1`, `ke = nx3>1`. -/
def minblOf (je ke : Nat) : Nat := 2 * (je + 1) * (ke + 1)

/-- Embedding of the derefinement candidate filter: the list `clderef` of
accepted parent locations in scan order, parameterized by the memory
`mem` behind the source's unchecked out-of-bounds reads. -/
def derefParents (lderef : List LogicalLocation) (mem : Nat → LogicalLocation)
    (je ke : Nat) : List LogicalLocation :=
  (List.range lderef.length).filterMap (fun n =>
    match lderef.get? n with
    | none => none
    | some base =>
      if base.lx1 % 2 = 0 ∧ base.lx2 % 2 = 0 ∧ base.lx3 % 2 = 0 then
        if rrAux lderef mem base (n + 1) (sibOffsets je ke) = minblOf je ke then
          some { lx1 := base.lx1 / 2, lx2 := base.lx2 / 2,
                 lx3 := base.lx3 / 2, level := base.level - 1 }
        else none
      else none)

/-- One possible content of the memory behind the out-of-bounds reads:
positions 2, 3, 4 happen to hold the three locations completing the
sibling group of {lx1 := 2, lx2 := 4, level := 3}, and every other
position holds that base location itself. -/
def memSiblingGarbage : Nat → LogicalLocation := fun r =>
  if r = 2 then { lx1 := 3, lx2 := 4, lx3 := 0, level := 3 }
  else if r = 3 then { lx1 := 2, lx2 := 5, lx3 := 0, level := 3 }
  else if r = 4 then { lx1 := 3, lx2 := 5, lx3 := 0, level := 3 }
  else { lx1 := 2, lx2 := 4, lx3 := 0, level := 3 }

/-- Another possible content of that memory: all zeroes. -/
def memZero : Nat → LogicalLocation := fun _ =>
  { lx1 := 0, lx2 := 0, lx3 := 0, level := 0 }

/-- C4 (code bug): the claim - a parent is accepted into `clderef` only
if all `2^dim` flagged siblings are present, and in particular one
flagged sibling of four accepts nothing, silently - describes the
intended filter, but the source's scan is not a function of the flag
set.  At the claim's own scenario (2D, exactly one all-even location
flagged for derefinement, so `tnderef = 1 <= minbl = 4` and `lderef` was
never allocated), the loop dereferences `lderef[1..4]` outside any
allocation: when the memory there happens to hold the sibling pattern,
the parent {lx1 := 1, lx2 := 2, level := 2} IS accepted although no
flagged sibling set exists (first conjunct); when it holds zeroes,
nothing is accepted (second conjunct).  The verdict depends on
unallocated memory, so the code guarantees neither the claimed
necessity nor the claimed silence (the read may equally fault). -/
theorem derefinement_filter_reads_out_of_bounds :
    derefParents [{lx1 := 2, lx2 := 4, lx3 := 0, level := 3}] memSiblingGarbage 1 0
      = [{lx1 := 1, lx2 := 2, lx3 := 0, level := 2}] ∧
    derefParents [{lx1 := 2, lx2 := 4, lx3 := 0, level := 3}] memZero 1 0 = [] := by
  decide

/-! ### Buffer-id bookkeeping in MeshBlock::SearchAndSetNeighbors (mesh.cpp lines 1295-1552)

For each face, edge and corner direction in a fixed order, the source
queries the tree (`FindNeighbor`, an external collaborator embedded as a
per-direction oracle).  On a NULL result `bufid` advances by the
direction's stride (`nf1*nf2` for faces, `nf1` or `nf2` for edges, 1 for
corners) and no neighbor entry is created; on a finer result one entry
per fine child is created, each taking the current `bufid` and
incrementing it by one; on a same-or-coarser result at most one entry is
created taking the current `bufid` (edges and corners skip non-sibling
coarser neighbors), and `bufid` advances by the full stride either way. -/

/-- Per-direction tree query outcome: no neighbor (NULL, e.g. a
reflecting domain boundary), a finer neighbor, or a same-or-coarser
neighbor with `emit` recording whether the entry is actually stored
(edges/corners drop coarser non-sibling neighbors; faces always store). -/
inductive NbQuery where
  | nullNb : NbQuery
  | finer : NbQuery
  | present : Bool → NbQuery
  deriving DecidableEq, Repr

/-- One direction of the neighbor sweep: its buffer-id stride `nf`
(`nf1*nf2`, `nf1`, `nf2` or 1 in the source, always at least 1) and the
tree query outcome. -/
structure DirStep where
  nf : Nat
  q : NbQuery
  deriving DecidableEq, Repr

/-- One step of the sweep: state is (current bufid, assigned buffer ids
in neighbor-list order). -/
def sasnStep (st : Nat × List Nat) (d : DirStep) : Nat × List Nat :=
  match d.q with
  | NbQuery.nullNb => (st.1 + d.nf, st.2)
  | NbQuery.finer => (st.1 + d.nf, st.2 ++ List.range' st.1 d.nf)
  | NbQuery.present e => (st.1 + d.nf, if e then st.2 ++ [st.1] else st.2)

/-- The buffer ids assigned over a whole direction sweep, starting from
`bufid = 0` as in the source. -/
def sasnBufids (dirs : List DirStep) : List Nat :=
  (dirs.foldl sasnStep (0, [])).2

/-- The total buffer-id space consumed by the sweep: the final value of
`bufid`, which for the full direction list equals the source's
`maxneighbor_ = BufferID(dim, multilevel, face_only)`. -/
def sasnTotal (dirs : List DirStep) : Nat :=
  (dirs.foldl sasnStep (0, [])).1

lemma sasnStep_invariant (dirs : List DirStep) :
    ∀ (b : Nat) (ids : List Nat),
      (∀ d ∈ dirs, 0 < d.nf) →
      ids.Pairwise (· < ·) → (∀ x ∈ ids, x < b) →
      ((dirs.foldl sasnStep (b, ids)).2.Pairwise (· < ·) ∧
        (∀ x ∈ (dirs.foldl sasnStep (b, ids)).2, x < (dirs.foldl sasnStep (b, ids)).1) ∧
        b ≤ (dirs.foldl sasnStep (b, ids)).1) := by
  induction dirs with
  | nil =>
    intro b ids _ hpw hub
    exact ⟨hpw, hub, le_refl b⟩
  | cons d t ih =>
    intro b ids hnf hpw hub
    have hd : 0 < d.nf := hnf d (List.mem_cons_self d t)
    have hnf' : ∀ x ∈ t, 0 < x.nf := fun x hx => hnf x (List.mem_cons_of_mem d hx)
    rw [List.foldl_cons]
    cases hq : d.q with
    | nullNb =>
      have hstep : sasnStep (b, ids) d = (b + d.nf, ids) := by
        simp [sasnStep, hq]
      rw [hstep]
      have h := ih (b + d.nf) ids hnf' hpw (fun x hx => lt_of_lt_of_le (hub x hx) (by omega))
      exact ⟨h.1, h.2.1, le_trans (by omega) h.2.2⟩
    | finer =>
      have hstep : sasnStep (b, ids) d = (b + d.nf, ids ++ List.range' b d.nf) := by
        simp [sasnStep, hq]
      rw [hstep]
      have hpw' : (ids ++ List.range' b d.nf).Pairwise (· < ·) := by
        rw [List.pairwise_append]
        refine ⟨hpw, List.pairwise_lt_range' b d.nf, ?_⟩
        intro x hx y hy
        have hyb : b ≤ y := (List.mem_range'_1.mp hy).1
        exact lt_of_lt_of_le (hub x hx) hyb
      have hub' : ∀ x ∈ ids ++ List.range' b d.nf, x < b + d.nf := by
        intro x hx
        rcases List.mem_append.mp hx with hx | hx
        · exact lt_of_lt_of_le (hub x hx) (by omega)
        · exact (List.mem_range'_1.mp hx).2
      have h := ih (b + d.nf) (ids ++ List.range' b d.nf) hnf' hpw' hub'
      exact ⟨h.1, h.2.1, le_trans (by omega) h.2.2⟩
    | present e =>
      cases e with
      | true =>
        have hstep : sasnStep (b, ids) d = (b + d.nf, ids ++ [b]) := by
          simp [sasnStep, hq]
        rw [hstep]
        have hpw' : (ids ++ [b]).Pairwise (· < ·) := by
          rw [List.pairwise_append]
          exact ⟨hpw, List.pairwise_singleton _ b, fun x hx y hy => by
            rw [List.mem_singleton.mp hy]; exact hub x hx⟩
        have hub' : ∀ x ∈ ids ++ [b], x < b + d.nf := by
          intro x hx
          rcases List.mem_append.mp hx with hx | hx
          · exact lt_of_lt_of_le (hub x hx) (by omega)
          · rw [List.mem_singleton.mp hx]; omega
        have h := ih (b + d.nf) (ids ++ [b]) hnf' hpw' hub'
        exact ⟨h.1, h.2.1, le_trans (by omega) h.2.2⟩
      | false =>
        have hstep : sasnStep (b, ids) d = (b + d.nf, ids) := by
          simp [sasnStep, hq]
        rw [hstep]
        have h := ih (b + d.nf) ids hnf'
          hpw (fun x hx => lt_of_lt_of_le (hub x hx) (by omega))
        exact ⟨h.1, h.2.1, le_trans (by omega) h.2.2⟩

/-- C3 counterexample: the claim asserts that after
`SearchAndSetNeighbors` the assigned buffer ids are exactly
{0, ..., nneighbor-1} even for blocks with null directions, but the
source advances `bufid` past a NULL direction without creating an entry
(e.g. line 1325 `if(neibt==NULL) { bufid+=nf1*nf2; continue;}`): for a 1D
non-multilevel block whose inner x1 face is a reflecting boundary (NULL)
and whose outer x1 neighbor is same-level, the single neighbor entry
carries bufid 1, not 0, so the ids are not the contiguous prefix
`List.range nneighbor`. -/
theorem bufid_contiguous_counterexample :
    sasnBufids [⟨1, NbQuery.nullNb⟩, ⟨1, NbQuery.present true⟩] = [1] ∧
    ¬ (sasnBufids [⟨1, NbQuery.nullNb⟩, ⟨1, NbQuery.present true⟩]
        = List.range (sasnBufids [⟨1, NbQuery.nullNb⟩, ⟨1, NbQuery.present true⟩]).length) := by
  decide

/-- C3 (amended): for every direction sweep of `SearchAndSetNeighbors`
(every per-direction tree outcome, including null directions and skipped
coarser neighbors), the assigned buffer ids are strictly increasing in
neighbor-list order and all lie in `[0, maxneighbor)` where
`maxneighbor` is the total id space consumed by the sweep; they form the
contiguous prefix {0,...,nneighbor-1} only when no direction is skipped. -/
theorem bufid_strict_increasing (dirs : List DirStep) (hnf : ∀ d ∈ dirs, 0 < d.nf) :
    (sasnBufids dirs).Pairwise (· < ·) ∧ ∀ x ∈ sasnBufids dirs, x < sasnTotal dirs := by
  have h := sasnStep_invariant dirs 0 [] hnf List.Pairwise.nil (by simp)
  exact ⟨h.1, h.2.1⟩

/-- Witness for C3 at the concrete 1D sweep with a reflecting inner
boundary: the ids [1] are strictly increasing and below the total id
space 2. -/
theorem bufid_strict_increasing_witness :
    (sasnBufids [⟨1, NbQuery.nullNb⟩, ⟨1, NbQuery.present true⟩]).Pairwise (· < ·) ∧
    ∀ x ∈ sasnBufids [⟨1, NbQuery.nullNb⟩, ⟨1, NbQuery.present true⟩],
      x < sasnTotal [⟨1, NbQuery.nullNb⟩, ⟨1, NbQuery.present true⟩] :=
  bufid_strict_increasing _ (by decide)

/-! ### Restart construction (mesh.cpp lines 567-752 and 957-1059)

Every `IOWrapper::Read` call (an external collaborator) is embedded by
its success flag: `true` when the call returned exactly the requested
item count, `false` on a short read.  The source counts failures in
`nerr` per phase and throws a fatal `runtime_error` after each phase when
`nerr > 0`; the tree rebuilt with `AddMeshBlockWithoutRefine` must
re-enumerate to exactly `nbtotal` leaves (line 688). -/

/-- Result of a fallible constructor: either a fully constructed object
or the thrown fatal error (no object produced). -/
inductive CtorResult where
  | ok : CtorResult
  | fatalError : CtorResult
  deriving DecidableEq, Repr

/-- The source's `nerr` counter over a phase of reads: the number of
reads that returned fewer (or other than) the requested items. -/
def nerrOf (reads : List Bool) : Nat := reads.countP (fun b => !b)

/-- Embedding of the restart `MeshBlock::MeshBlock` constructor (lines
957-1059): phase one reads `block_size` and the six boundary tags, phase
two reads the hydro conserved array and the optional GR/MHD payloads;
each phase throws when its `nerr` is positive. -/
def meshBlockRestartCtor (hdrReads payloadReads : List Bool) : CtorResult :=
  if 0 < nerrOf hdrReads then CtorResult.fatalError
  else if 0 < nerrOf payloadReads then CtorResult.fatalError
  else CtorResult.ok

/-- Embedding of the restart `Mesh::Mesh` constructor (lines 567-752):
the seven header reads, then the `4*nbtotal` id-list reads (gid,
LogicalLocation, cost, offset per block), then the rebuilt tree's leaf
count against the header's `nbtotal`, then each local block's
constructor. -/
def meshRestartCtor (hdrReads idListReads : List Bool) (treeLeafCount nbtotal : Nat)
    (blocks : List (List Bool × List Bool)) : CtorResult :=
  if 0 < nerrOf hdrReads then CtorResult.fatalError
  else if 0 < nerrOf idListReads then CtorResult.fatalError
  else if treeLeafCount ≠ nbtotal then CtorResult.fatalError
  else if blocks.any (fun b => meshBlockRestartCtor b.1 b.2 == CtorResult.fatalError) then
    CtorResult.fatalError
  else CtorResult.ok

lemma nerr_zero_iff (l : List Bool) : ¬ 0 < nerrOf l ↔ ∀ b ∈ l, b = true := by
  unfold nerrOf
  rw [not_lt, Nat.le_zero, List.countP_eq_zero]
  constructor
  · intro h b hb
    have hb' := h b hb
    simp only [Bool.not_eq_true'] at hb'
    simp at hb'
    exact hb'
  · intro h b hb
    simp [h b hb]

lemma meshBlockRestartCtor_ok_iff (h p : List Bool) :
    meshBlockRestartCtor h p = CtorResult.ok ↔
      (∀ b ∈ h, b = true) ∧ (∀ b ∈ p, b = true) := by
  unfold meshBlockRestartCtor
  split_ifs with h1 h2
  · exact iff_of_false (by decide)
      (fun hc => (nerr_zero_iff h).mpr hc.1 h1)
  · exact iff_of_false (by decide)
      (fun hc => (nerr_zero_iff p).mpr hc.2 h2)
  · exact iff_of_true rfl ⟨(nerr_zero_iff h).mp h1, (nerr_zero_iff p).mp h2⟩

/-- C8: restart construction succeeds exactly when every header read,
every id-list read, every per-block read returned the requested item
count and the rebuilt tree's leaf count equals the header's `nbtotal`;
any short read anywhere, or a leaf-count mismatch, yields the fatal
error and no Mesh.  The concrete conjunct: one short id-list read aborts
construction. -/
theorem restart_shortRead_fatal :
    (∀ (hdrReads idListReads : List Bool) (treeLeafCount nbtotal : Nat)
        (blocks : List (List Bool × List Bool)),
      meshRestartCtor hdrReads idListReads treeLeafCount nbtotal blocks = CtorResult.ok ↔
        ((∀ b ∈ hdrReads, b = true) ∧ (∀ b ∈ idListReads, b = true) ∧
          treeLeafCount = nbtotal ∧
          ∀ p ∈ blocks, (∀ b ∈ p.1, b = true) ∧ (∀ b ∈ p.2, b = true)))
    ∧ meshRestartCtor [true, true, true, true, true, true, true] [false] 8 8 []
        = CtorResult.fatalError
    ∧ meshRestartCtor [true, true, true, true, true, true, true] [] 7 8 []
        = CtorResult.fatalError := by
  refine ⟨?_, by decide, by decide⟩
  intro hdrReads idListReads treeLeafCount nbtotal blocks
  unfold meshRestartCtor
  split_ifs with h1 h2 h3 h4
  · exact iff_of_false (by decide)
      (fun hc => (nerr_zero_iff hdrReads).mpr hc.1 h1)
  · exact iff_of_false (by decide)
      (fun hc => (nerr_zero_iff idListReads).mpr hc.2.1 h2)
  · exact iff_of_false (by decide) (fun hc => h3 hc.2.2.1)
  · refine iff_of_false (by decide) (fun hc => ?_)
    obtain ⟨p, hp, hbad⟩ := List.any_eq_true.mp h4
    rw [beq_iff_eq] at hbad
    have hok := (meshBlockRestartCtor_ok_iff p.1 p.2).mpr (hc.2.2.2 p hp)
    rw [hok] at hbad
    exact CtorResult.noConfusion hbad
  · refine iff_of_true rfl ⟨(nerr_zero_iff hdrReads).mp h1,
      (nerr_zero_iff idListReads).mp h2, not_not.mp h3, ?_⟩
    intro p hp
    refine (meshBlockRestartCtor_ok_iff p.1 p.2).mp ?_
    cases hres : meshBlockRestartCtor p.1 p.2 with
    | ok => rfl
    | fatalError =>
      exact absurd (List.any_eq_true.mpr ⟨p, hp, by rw [hres]; decide⟩) h4

/-! ### Refinement-cycle guards in Mesh::MeshRefinement (mesh.cpp lines 1698-1728, 1773-1800, 1835-1841)

The source counts `tnref` (blocks flagged +1) and `tnderef` (blocks
flagged -1) over all ranks, returns early only when both are zero (line
1702), allocates the gathered array `lderef` only when
`tnderef > minbl` (lines 1725-1728, `minbl` = 2/4/8 from the mesh
dimensionality, lines 1722-1724), yet the candidate loop at line 1777
iterates `n = 0 .. tnderef-1` reading `lderef[n]` unconditionally, and
`Initialize(2, pin)` at line 1841 runs on every path past the early
return. -/

/-- The early-return guard at mesh.cpp line 1702:
`if(tnref==0 && tnderef==0) ... return;`. -/
def meshRefinementEarlyReturn (tnref tnderef : Nat) : Bool :=
  tnref == 0 && tnderef == 0

/-- The `minbl` computed at mesh.cpp lines 1722-1724 from the mesh cell
counts: 2, then 4 when `nx2 > 1`, then 8 when `nx3 > 1`. -/
def minblOfMesh (nx2 nx3 : Int) : Nat :=
  if nx3 > 1 then 8 else if nx2 > 1 then 4 else 2

/-- The allocation guard at mesh.cpp line 1725: `lderef` (and `clderef`)
are allocated only when `tnderef > minbl`. -/
def lderefAllocated (tnderef minbl : Nat) : Bool := decide (minbl < tnderef)

/-- The candidate loop at mesh.cpp line 1777 dereferences `lderef[n]`
for every `n < tnderef`, so it reads `lderef` whenever `tnderef > 0`. -/
def derefLoopReadsLderef (tnderef : Nat) : Bool := decide (0 < tnderef)

/-- `Initialize(2, pin)` at mesh.cpp line 1841 is reached exactly when
the early return at line 1702 was not taken. -/
def meshRefinementReinitializes (tnref tnderef : Nat) : Bool :=
  !(meshRefinementEarlyReturn tnref tnderef)

/-- C2 (code bug): the claim (and spec §4.6 step 3) requires the
refinement cycle to be a no-op whenever total refine = 0 and total
derefine ≤ minbl, but the source's early return fires only when both
totals are zero.  Evaluated at the failing input tnref = 0, tnderef = 1
on a 2D mesh (nx2 = 16, nx3 = 1, so minbl = 4, and 1 ≤ 4): the cycle
does not return early, it re-runs neighbor search and
`Initialize(2, pin)` (so block state is touched), and the candidate loop
reads the array `lderef`, which in this regime was never allocated
(allocation requires tnderef > minbl) — an out-of-bounds access, not a
no-op. -/
theorem meshRefinement_noop_guard_bug :
    minblOfMesh 16 1 = 4 ∧ (1 : Nat) ≤ 4 ∧
    meshRefinementEarlyReturn 0 1 = false ∧
    meshRefinementReinitializes 0 1 = true ∧
    lderefAllocated 1 4 = false ∧
    derefLoopReadsLderef 1 = true := by
  decide

/-- Modelled from the spec: `LogicalLocation::Greater`, the comparator
handed to `std::sort` (declared in the mesh header, which is not part of
src/).  The spec orders `clderef` in "descending (level, Morton) order":
deeper levels first, ties within a level broken by the Morton
(bit-interleaved) key on (lx3, lx2, lx1). -/
def morton3 (l1 l2 l3 : Nat) : Nat :=
  (List.range 64).foldl (fun acc b =>
    acc + (((l1 >>> b) &&& 1) <<< (3 * b)) + (((l2 >>> b) &&& 1) <<< (3 * b + 1))
        + (((l3 >>> b) &&& 1) <<< (3 * b + 2))) 0

/-- Modelled from the spec: the descending (level, Morton) comparator. -/
def LogicalLocation.Greater (left right : LogicalLocation) : Bool :=
  decide (right.level < left.level) ||
  (decide (left.level = right.level) &&
    decide (morton3 right.lx1.toNat right.lx2.toNat right.lx3.toNat <
      morton3 left.lx1.toNat left.lx2.toNat left.lx3.toNat))

/-- Embedding of the sort call at mesh.cpp lines 1801-1803:
`if(ctnd>1) std::sort(clderef, &(clderef[ctnd-1]), LogicalLocation::Greater);`
The end iterator `&clderef[ctnd-1]` addresses the LAST element, so the
sorted range is `[0, ctnd-1)` and the final element is left in place.
`std::sort` itself (an external library call) is embedded as a merge
sort over the comparator's induced preorder; the failing input below
sorts a one-element range, where every sort is the identity. -/
def sortClderefCode (l : List LogicalLocation) : List LogicalLocation :=
  if 1 < l.length then
    (l.take (l.length - 1)).mergeSort (fun x y => !(LogicalLocation.Greater y x))
      ++ l.drop (l.length - 1)
  else l

/-- C5 (code bug): the claim says the entire array clderef[0..ctnd) is
sorted descending so the deepest derefinements come first, and the
source's own comment says "sort the lists by level", but the end
iterator `&clderef[ctnd-1]` excludes the last element.  At the failing
input ctnd = 2, clderef = [level 1 parent, level 2 parent]: the code
sorts a one-element range, leaving the deeper parent last, so the output
violates the claimed pairwise descending order (the level-2 entry is
Greater than the level-1 entry standing before it). -/
theorem clderef_sort_off_by_one :
    sortClderefCode [{lx1 := 0, lx2 := 0, lx3 := 0, level := 1},
        {lx1 := 0, lx2 := 0, lx3 := 0, level := 2}]
      = [{lx1 := 0, lx2 := 0, lx3 := 0, level := 1},
         {lx1 := 0, lx2 := 0, lx3 := 0, level := 2}] ∧
    LogicalLocation.Greater {lx1 := 0, lx2 := 0, lx3 := 0, level := 2}
      {lx1 := 0, lx2 := 0, lx3 := 0, level := 1} = true ∧
    ¬ ((sortClderefCode [{lx1 := 0, lx2 := 0, lx3 := 0, level := 1},
          {lx1 := 0, lx2 := 0, lx3 := 0, level := 2}]).Pairwise
        (fun x y => LogicalLocation.Greater y x = false)) := by
  have hsort : sortClderefCode [{lx1 := 0, lx2 := 0, lx3 := 0, level := 1},
      {lx1 := 0, lx2 := 0, lx3 := 0, level := 2}]
      = [{lx1 := 0, lx2 := 0, lx3 := 0, level := 1},
         {lx1 := 0, lx2 := 0, lx3 := 0, level := 2}] := by
    simp [sortClderefCode, List.mergeSort]
  refine ⟨hsort, by decide, ?_⟩
  rw [hsort]
  intro hpw
  have h := (List.pairwise_cons.mp hpw).1 _ (List.mem_cons_self _ _)
  revert h
  decide

/-! ### Neighbor-table rebuild at the end of Mesh::MeshRefinement (mesh.cpp lines 1835-1841)

The loop walks `pmb` over the local block list, but its body invokes
`pblock->SearchAndSetNeighbors(...)` — always the FIRST block of the
list — once per iteration; then `Initialize(2, pin)` runs.  Each block
is embedded as the number of times `SearchAndSetNeighbors` has been
invoked on it (all zero at loop entry). -/

/-- One loop iteration of the source: `pblock->SearchAndSetNeighbors`
bumps the first block's invocation count, whatever `pmb` points at. -/
def applySASNFirst (blocks : List Nat) : List Nat :=
  match blocks with
  | [] => []
  | b :: t => (b + 1) :: t

/-- The whole loop: one iteration per entry of the local block list. -/
def meshRefinementNeighborLoop (blocks : List Nat) : List Nat :=
  applySASNFirst^[blocks.length] blocks

/-- C9 (code bug): the claim says the neighbor table of EVERY local
block is recomputed, but the loop body names `pblock` (the first block)
instead of the cursor `pmb`, so with two local blocks the first is
recomputed twice and the second never — its invocation count stays 0,
falsifying "every block's table is recomputed" (the subsequent
`Initialize(2, pin)` call at line 1841 does happen, but cannot repair
the stale neighbor tables). -/
theorem refinement_neighbor_loop_bug :
    meshRefinementNeighborLoop [0, 0] = [2, 0] ∧
    ¬ (∀ x ∈ meshRefinementNeighborLoop [0, 0], 0 < x) := by
  decide
